import Mathlib

/-!
Verification of the sparse-matrix assembly layer in
`src/include/SparseMatrix.h` (class `puff::SparseMatrixWrapper`).

The C++ class is a template over `IndexType`, `ValueType` and a memory
space; the repository instantiates it with `IndexType = uint32_t` and
`KEY_TYPE = uint64_t` (the `INDEX_TYPE`/`KEY_TYPE` defines at the top of
the header).  We embed:

* machine integers as `Nat` with explicit reduction modulo `2 ^ 32`
  (`word32`) and `2 ^ 64` (`word64`) where the C++ arithmetic can wrap;
* the `std::unordered_map<KEY_TYPE, ValueType> entries` store as an
  association list in (unspecified) iteration order, with the map
  invariants (no duplicate keys, keys produced by `row_col_to_key`, hence
  below `2 ^ 64`) carried as hypotheses;
* `thrust::stable_sort_by_key` and `cusp::counting_sort_by_key` — external
  backend primitives — as `List.insertionSort`, which is a stable sort and
  therefore extensionally equal to any other stable sort on the same key
  relation;
* `cusp::multiply` — an external backend primitive — following the contract
  stated in the design document (coordinate-format sparse matrix times
  dense vector).

Value types are kept generic where the source is generic; the complex
instantiation (`dcomplex` etc.) is modelled by a concrete pair type `Cplx`
with componentwise conjugation.
-/

namespace Puff

/-- `2 ^ 32`, the modulus of `INDEX_TYPE = uint32_t` arithmetic. -/
def word32 : Nat := 2 ^ 32

/-- `2 ^ 64`, the modulus of `KEY_TYPE = uint64_t` arithmetic. -/
def word64 : Nat := 2 ^ 64

/-- Lines 259–262: `((KEY_TYPE)row << 32) + col` computed in `uint64_t`.
The arguments are `uint32_t` values, so carry the range `row, col < word32`
as a hypothesis where it matters. -/
def row_col_to_key (row col : Nat) : Nat :=
  (row * word32 + col) % word64

/-- Lines 264–269: `row = (IndexType)(key >> 32)`, `col = (IndexType)key`,
both casts truncating to `uint32_t`. -/
def key_to_row_col (key : Nat) : Nat × Nat :=
  ((key / word32) % word32, key % word32)

/-- An element of the `entries` store: a 64-bit composite key with a value. -/
abbrev Entry (α : Type) := Nat × α

/-- A COO triplet `(row, col, value)`. -/
abbrev Triple (α : Type) := Nat × Nat × α

/-- Lines 33–39: `entries[row_col_to_key(row, col)] = val`.  On an
association list: overwrite the value at the key if present, otherwise
add a binding (the position of a fresh binding inside an
`std::unordered_map` is unspecified; we place it at the tail, and all
theorems about materialization are insensitive to the position). -/
def insert_entry [DecidableEq α] (entries : List (Entry α)) (row col : Nat) (val : α) :
    List (Entry α) :=
  let key := row_col_to_key row col
  if entries.any (fun e => decide (e.1 = key)) then
    entries.map (fun e => if e.1 = key then (key, val) else e)
  else
    entries ++ [(key, val)]

/-- Lines 41–47: `entries.erase(row_col_to_key(row, col))`. -/
def remove_entry [DecidableEq α] (entries : List (Entry α)) (row col : Nat) :
    List (Entry α) :=
  let key := row_col_to_key row col
  entries.filter (fun e => decide (e.1 ≠ key))

/-- Lines 56–65 of `make_matrix`: iterate the store, decode each key with
`key_to_row_col`, skip zero values, and stage the surviving triplets in
iteration order. -/
def stagedTriples [Zero α] [DecidableEq α] (entries : List (Entry α)) : List (Triple α) :=
  (entries.filter (fun e => decide (e.2 ≠ 0))).map
    (fun e => ((key_to_row_col e.1).1, (key_to_row_col e.1).2, e.2))

/-- Key relation of the first `thrust::stable_sort_by_key` call (line 79):
compare triplets by column index. -/
def colLE (a b : Triple α) : Prop := a.2.1 ≤ b.2.1

/-- Key relation of the second `thrust::stable_sort_by_key` call (line 80):
compare triplets by row index. -/
def rowLE (a b : Triple α) : Prop := a.1 ≤ b.1

instance : DecidableRel (@colLE α) := fun a b => Nat.decLe a.2.1 b.2.1

instance : DecidableRel (@rowLE α) := fun a b => Nat.decLe a.1 b.1

instance : IsTotal (Triple α) colLE := ⟨fun a b => Nat.le_total a.2.1 b.2.1⟩

instance : IsTrans (Triple α) colLE := ⟨fun _ _ _ => Nat.le_trans⟩

instance : IsTotal (Triple α) rowLE := ⟨fun a b => Nat.le_total a.1 b.1⟩

instance : IsTrans (Triple α) rowLE := ⟨fun _ _ _ => Nat.le_trans⟩

/-- Lines 78–80: two composed stable sorts — first by column index, then by
row index.  `thrust::stable_sort_by_key` is an external primitive whose
contract (a stable sort) determines its output uniquely, so any stable
sort models it; we use `List.insertionSort`. -/
def sortTriples (t : List (Triple α)) : List (Triple α) :=
  List.insertionSort rowLE (List.insertionSort colLE t)

/-- Line 84 and 85: `*thrust::max_element(v.begin(), v.end())` over the
staged index vector.  On an empty vector the C++ dereferences the end
iterator (undefined behaviour); the embedding returns `0` there, and every
theorem that depends on the maximum assumes at least one surviving entry. -/
def maxIndex (l : List Nat) : Nat := l.foldr max 0

/-- The compact COO matrix (`cusp::coo_matrix`): parallel row/column/value
sequences plus the inferred dimensions. -/
structure CompactMatrix (α : Type) where
  num_rows : Nat
  num_cols : Nat
  row_indices : List Nat
  column_indices : List Nat
  values : List α
deriving DecidableEq

/-- A default-constructed (`0 × 0`, empty) `cusp::coo_matrix`. -/
def CompactMatrix.empty : CompactMatrix α := ⟨0, 0, [], [], []⟩

/-- Lines 49–121 (COO branch) of `make_matrix`: stage the surviving
triplets, sort them with the two stable sorts, infer dimensions as
`max index + 1` in `IndexType` (`uint32_t`) arithmetic, and copy the three
sequences into the matrix. -/
def make_matrix [Zero α] [DecidableEq α] (entries : List (Entry α)) : CompactMatrix α :=
  let t := sortTriples (stagedTriples entries)
  { num_rows := (maxIndex (t.map (fun x => x.1)) + 1) % word32
    num_cols := (maxIndex (t.map (fun x => x.2.1)) + 1) % word32
    row_indices := t.map (fun x => x.1)
    column_indices := t.map (fun x => x.2.1)
    values := t.map (fun x => x.2.2) }

/-- The triplet sequence of a compact matrix, reading the three parallel
sequences in lockstep. -/
def triples (M : CompactMatrix α) : List (Triple α) :=
  M.row_indices.zip (M.column_indices.zip M.values)

/-- Key relation of the `cusp::counting_sort_by_key` call (line 126):
compare positions by the column index stored at them. -/
def permLE (J : List Nat) (i j : Nat) : Prop := J.getD i 0 ≤ J.getD j 0

instance (J : List Nat) : DecidableRel (permLE J) :=
  fun i j => Nat.decLe (J.getD i 0) (J.getD j 0)

instance (J : List Nat) : IsTotal Nat (permLE J) :=
  ⟨fun i j => Nat.le_total (J.getD i 0) (J.getD j 0)⟩

instance (J : List Nat) : IsTrans Nat (permLE J) :=
  ⟨fun _ _ _ => Nat.le_trans⟩

/-- Lines 124–126: `permutation` starts as `counting_array(num_entries)`
(the identity `[0, …, nnz)`), then `cusp::counting_sort_by_key` — an
external stable counting sort keyed on a copy of the column indices —
reorders it.  A stable counting sort is a stable sort on the key range, so
we model it with a stable sort of the positions by their column index. -/
def transpose_permutation (J : List Nat) : List Nat :=
  List.insertionSort (permLE J) (List.range J.length)

/-- Lines 127–133: `cusp::make_coo_matrix_view(matrix.num_rows,
matrix.num_cols, matrix.num_entries, column_indices ∘ permutation,
row_indices ∘ permutation, values ∘ permutation)`.  The first view argument
is the row-index sequence, so the view swaps the row and column sequences
— but the source passes the dimensions `(num_rows, num_cols)` unswapped. -/
def matrix_t [Zero α] (M : CompactMatrix α) : CompactMatrix α :=
  let p := transpose_permutation M.column_indices
  { num_rows := M.num_rows
    num_cols := M.num_cols
    row_indices := p.map (fun i => M.column_indices.getD i 0)
    column_indices := p.map (fun i => M.row_indices.getD i 0)
    values := p.map (fun i => M.values.getD i (0 : α)) }

/-- Modelled from the spec: the contribution of one output coordinate in
the backend sparse matrix–vector product — the sum of `value * x[col]`
over the triplets whose row index is `r` (§6: a COO sparse matrix–vector
multiply primitive). -/
def rowContrib [Zero α] [Add α] [Mul α] (ts : List (Triple α)) (x : List α) (r : Nat) : α :=
  (ts.filter (fun t => decide (t.1 = r))).foldr
    (fun t acc => t.2.2 * x.getD t.2.1 0 + acc) 0

/-- Modelled from the spec: `cusp::multiply(A, x, y)` for a COO matrix `A`
and dense vectors — `y` has length `A.num_rows` and
`y[r] = Σ value * x[col]` over the entries of row `r` (§6). -/
def mult [Zero α] [Add α] [Mul α] (M : CompactMatrix α) (x : List α) : List α :=
  (List.range M.num_rows).map (rowContrib (triples M) x)

/-- Modelled from the spec: an explicitly transposed copy of `M` — every
entry `(r, c, v)` becomes `(c, r, v)` and the dimensions are swapped. -/
def explicit_transpose (M : CompactMatrix α) : CompactMatrix α :=
  { num_rows := M.num_cols
    num_cols := M.num_rows
    row_indices := M.column_indices
    column_indices := M.row_indices
    values := M.values }

/-- Lines 169–172 / 177–180: the multiply operand is the transpose view
when the `transpose` flag is set, the matrix itself otherwise. -/
def operandMatrix [Zero α] (M : CompactMatrix α) (transpose : Bool) : CompactMatrix α :=
  if transpose then matrix_t M else M

/-- Lines 151–181 for a non-complex `ValueType` (the `if constexpr`
conjugation branches compile away) and distinct `x`/`y` storage: the
result written into `y` by `SpMV`. -/
def SpMV_out [Zero α] [Add α] [Mul α] (M : CompactMatrix α) (x : List α)
    (transpose : Bool) : List α :=
  mult (operandMatrix M transpose) x

end Puff

namespace Puff

/-! ### A storage-level model for the aliasing contract of `SpMV`

`SpMV` receives references `x` and `y` and compares their addresses
(`&x == &y`, line 166).  We model vector storage as a heap from addresses
to contents.  The backend `cusp::multiply` is given an arbitrary
"aliased" outcome `junk`: its contract only covers distinct input and
output buffers, and the theorem for claim C7 holds for every `junk`,
showing the wrapper never exercises the aliased case of the backend. -/

/-- Update one address of a heap of vectors. -/
def heapUpd (h : Nat → List α) (a : Nat) (v : List α) : Nat → List α :=
  fun b => if b = a then v else h b

/-- Modelled from the spec: `cusp::multiply(A, *px, *py)` on a heap.  With
distinct buffers it writes `mult A (h px)` into `py`; with aliased buffers
its behaviour is outside the backend contract, modelled by an arbitrary
`junk` result. -/
def cusp_multiply [Zero α] [Add α] [Mul α] (junk : List α) (M : CompactMatrix α)
    (h : Nat → List α) (px py : Nat) : Nat → List α :=
  if px = py then heapUpd h py junk else heapUpd h py (mult M (h px))

/-- Lines 151–181 (non-complex `ValueType`) at the storage level.  If
`&x == &y` (equal addresses), a temporary of size `x.size()` is allocated
at a fresh address, the multiply writes into it, and `y.swap(temp)`
exchanges the two buffers; otherwise the multiply writes into `y`
directly. -/
def SpMV_heap [Zero α] [Add α] [Mul α] (junk : List α) (M : CompactMatrix α)
    (h : Nat → List α) (px py : Nat) (transpose : Bool) : Nat → List α :=
  if px = py then
    let pt := px + py + 1
    let h1 := heapUpd h pt (List.replicate (h px).length (0 : α))
    let h2 := cusp_multiply junk (operandMatrix M transpose) h1 px pt
    heapUpd (heapUpd h2 py (h2 pt)) pt (h2 py)
  else
    cusp_multiply junk (operandMatrix M transpose) h px py

/-- Lines 194–225: `SpMVP` computes `y = alpha * A * x + beta * y` with the
short-circuit branches of the source.  The final
`thrust::transform(temp.begin(), temp.end(), y.begin(), y.begin(), plus)`
writes `temp.size()` elements of `y` and leaves the rest unchanged. -/
def SpMVP [Zero α] [One α] [Add α] [Mul α] [DecidableEq α] (M : CompactMatrix α)
    (alpha : α) (x : List α) (beta : α) (y : List α) (transpose : Bool) : List α :=
  if beta = 0 then
    let y1 := if alpha = 0 then y else SpMV_out M x transpose
    if alpha = 1 then y1 else y1.map (fun v => v * alpha)
  else
    let t1 := if alpha = 0 then List.replicate x.length (0 : α) else SpMV_out M x transpose
    let t2 := if alpha = 0 then t1 else if alpha = 1 then t1 else t1.map (fun v => v * alpha)
    let y1 := if beta = 1 then y else y.map (fun v => v * beta)
    List.zipWith (· + ·) t2 y1 ++ y1.drop t2.length

end Puff

namespace Puff

/-! ### The complex instantiation and the conjugation frame (lines 156–163
and 183–190) -/

/-- A complex value type standing for the `dcomplex`/`fcomplex`/… template
instantiations: a real and an imaginary component. -/
structure Cplx where
  re : Int
  im : Int
deriving DecidableEq

/-- The `conjugate_functor`: negate the imaginary component. -/
def Cplx.conj (z : Cplx) : Cplx := ⟨z.re, -z.im⟩

instance : Zero Cplx := ⟨⟨0, 0⟩⟩

instance : Add Cplx := ⟨fun a b => ⟨a.re + b.re, a.im + b.im⟩⟩

instance : Mul Cplx := ⟨fun a b => ⟨a.re * b.re - a.im * b.im, a.re * b.im + a.im * b.re⟩⟩

/-- Lines 162 / 189: `thrust::transform(values, values, conjugate_functor)`
— conjugate the stored matrix values in place. -/
def conjValues (M : CompactMatrix Cplx) : CompactMatrix Cplx :=
  { M with values := M.values.map Cplx.conj }

/-- Lines 151–191 for a complex `ValueType` and distinct `x`/`y` storage:
if `conjugate` is set the matrix values are conjugated in place, the
multiply runs (through the transpose view when `transpose` is set — the
view borrows the same value storage, hence sees the conjugated values),
and the values are conjugated back.  Returns the final stored matrix
together with the result written into `y`. -/
def SpMV_complex (M : CompactMatrix Cplx) (x : List Cplx)
    (transpose conjugate : Bool) : CompactMatrix Cplx × List Cplx :=
  let M1 := if conjugate then conjValues M else M
  let y := mult (operandMatrix M1 transpose) x
  let M2 := if conjugate then conjValues M1 else M1
  (M2, y)

end Puff

namespace Puff

/-! ### The wrapper object (lines 11–18 and 248–257) -/

/-- The mutable state of a `SparseMatrixWrapper`: the compact matrix, the
transpose view, the permutation backing the view, and the staging store. -/
structure SparseMatrixWrapper (α : Type) where
  matrix : CompactMatrix α
  matrixT : CompactMatrix α
  permutation : List Nat
  entries : List (Entry α)

/-- Line 14: the default constructor — every member default-initialized. -/
def SparseMatrixWrapper.mk_default : SparseMatrixWrapper α :=
  { matrix := CompactMatrix.empty
    matrixT := CompactMatrix.empty
    permutation := []
    entries := [] }

/-- Lines 16–18: the converting constructor.  Its parameter is named
`matrix` and shadows the member `matrix`, so the body `matrix = matrix`
assigns the parameter to itself and the member keeps its
default-constructed value; the argument is discarded. -/
def SparseMatrixWrapper.mk_from_matrix (m : CompactMatrix α) : SparseMatrixWrapper α :=
  let param := m
  let _param := param
  { matrix := CompactMatrix.empty
    matrixT := CompactMatrix.empty
    permutation := []
    entries := [] }

/-- Lines 20–22: `get_num_rows` returns `matrix.num_rows`. -/
def get_num_rows (w : SparseMatrixWrapper α) : Nat := w.matrix.num_rows

/-- Lines 24–26: `get_num_cols` returns `matrix.num_cols`. -/
def get_num_cols (w : SparseMatrixWrapper α) : Nat := w.matrix.num_cols

end Puff

namespace Puff

/-! ## Theorems -/

open List

/-- Zipping the three projections of a triplet list back together recovers
the list. -/
theorem zip_proj (l : List (Triple α)) :
    (l.map (fun x => x.1)).zip ((l.map (fun x => x.2.1)).zip (l.map (fun x => x.2.2))) = l := by
  induction l with
  | nil => rfl
  | cons a t ih => simp [List.zip_cons_cons, ih]

/-- The triplet sequence of the materialized matrix is the sorted staged
triplet sequence. -/
theorem triples_make_matrix [Zero α] [DecidableEq α] (entries : List (Entry α)) :
    triples (make_matrix entries) = sortTriples (stagedTriples entries) := by
  simp only [triples, make_matrix]
  exact zip_proj _

/-- The two-pass sort permutes the staged triplets. -/
theorem sortTriples_perm (t : List (Triple α)) : sortTriples t ~ t :=
  (List.perm_insertionSort _ _).trans (List.perm_insertionSort _ _)

/-- Two distinct members of a list form a two-element sublist in one order
or the other. -/
theorem pair_sublist_of_mem {β : Type} {x y : β} {l : List β}
    (hx : x ∈ l) (hy : y ∈ l) (hne : x ≠ y) : [x, y] <+ l ∨ [y, x] <+ l := by
  induction l with
  | nil => cases hx
  | cons a t ih =>
    rcases List.mem_cons.mp hx with rfl | hxt
    · have hyt : y ∈ t := by
        rcases List.mem_cons.mp hy with rfl | h
        · exact absurd rfl hne
        · exact h
      exact Or.inl (List.Sublist.cons₂ _ (List.singleton_sublist.mpr hyt))
    · rcases List.mem_cons.mp hy with rfl | hyt
      · exact Or.inr (List.Sublist.cons₂ _ (List.singleton_sublist.mpr hxt))
      · exact (ih hxt hyt).imp (List.Sublist.cons _) (List.Sublist.cons _)

/-- In a duplicate-free list, a pair cannot occur as a sublist in both
orders unless the two elements coincide. -/
theorem pair_sublist_antisymm {β : Type} {x y : β} {l : List β}
    (hnd : l.Nodup) (h1 : [x, y] <+ l) (h2 : [y, x] <+ l) : x = y := by
  induction l with
  | nil => simp at h1
  | cons a t ih =>
    obtain ⟨hat, hndt⟩ := List.nodup_cons.mp hnd
    cases h1 with
    | cons _ h1' =>
      cases h2 with
      | cons _ h2' => exact ih hndt h1' h2'
      | cons₂ _ h2' => exact absurd (h1'.subset (by simp)) hat
    | cons₂ _ h1' =>
      cases h2 with
      | cons _ h2' => exact absurd (h2'.subset (by simp)) hat
      | cons₂ _ h2' => rfl

/-- Stability composition: stably sorting a column-sorted, duplicate-free
triplet list by row yields the row-major lexicographic order. -/
theorem sorted_rowMajor_of_sorted_col {m : List (Triple α)}
    (hnd : m.Nodup) (hm : m.Pairwise (@colLE α)) :
    (List.insertionSort rowLE m).Pairwise
      (fun a b => a.1 < b.1 ∨ (a.1 = b.1 ∧ a.2.1 ≤ b.2.1)) := by
  have hperm : List.insertionSort rowLE m ~ m := List.perm_insertionSort _ _
  have hnd' : (List.insertionSort rowLE m).Nodup := hperm.nodup_iff.mpr hnd
  have hsorted : (List.insertionSort rowLE m).Pairwise (@rowLE α) :=
    List.sorted_insertionSort rowLE m
  rw [List.pairwise_iff_forall_sublist]
  intro a b hab
  have hle : a.1 ≤ b.1 := List.pairwise_iff_forall_sublist.mp hsorted hab
  rcases Nat.lt_or_ge a.1 b.1 with h | h
  · exact Or.inl h
  · have heq : a.1 = b.1 := Nat.le_antisymm hle h
    refine Or.inr ⟨heq, ?_⟩
    have hne : a ≠ b := by
      intro e
      subst e
      exact List.nodup_iff_sublist.mp hnd' a hab
    have ham : a ∈ m := hperm.subset (hab.subset (by simp))
    have hbm : b ∈ m := hperm.subset (hab.subset (by simp))
    rcases pair_sublist_of_mem ham hbm hne with h2 | h2
    · exact List.pairwise_iff_forall_sublist.mp hm h2
    · have hba : [b, a] <+ List.insertionSort rowLE m :=
        List.pair_sublist_insertionSort (le_of_eq heq.symm) h2
      exact absurd (pair_sublist_antisymm hnd' hab hba) hne

/-- With duplicate-free 64-bit keys the staged triplets are
duplicate-free. -/
theorem stagedTriples_nodup [Zero α] [DecidableEq α] (entries : List (Entry α))
    (hb : ∀ k ∈ entries.map Prod.fst, k < word64)
    (hnd : (entries.map Prod.fst).Nodup) :
    (stagedTriples entries).Nodup := by
  have hent : entries.Nodup := hnd.of_map
  have hfil : (entries.filter (fun e => decide (e.2 ≠ 0))).Nodup := hent.filter _
  refine List.Nodup.map_on ?_ hfil
  intro e1 he1 e2 he2 heq
  have he1' : e1 ∈ entries := List.mem_of_mem_filter he1
  have he2' : e2 ∈ entries := List.mem_of_mem_filter he2
  have hb1 : e1.1 < word64 := hb _ (List.mem_map_of_mem _ he1')
  have hb2 : e2.1 < word64 := hb _ (List.mem_map_of_mem _ he2')
  have hkey : e1.1 = e2.1 := by
    have hr := congrArg (fun t : Triple α => t.1) heq
    have hc := congrArg (fun t : Triple α => t.2.1) heq
    simp only [key_to_row_col] at hr hc
    simp only [word32, word64] at hr hc hb1 hb2
    omega
  exact List.inj_on_of_nodup_map hnd he1' he2' hkey

/-- **C1.**  For every entry set (duplicate-free 64-bit keys), the
materialized matrix lists its triplets in canonical row-major order:
non-decreasing row index, and non-decreasing column index among equal
rows. -/
theorem make_matrix_canonical_order [Zero α] [DecidableEq α] (entries : List (Entry α))
    (hb : ∀ k ∈ entries.map Prod.fst, k < word64)
    (hnd : (entries.map Prod.fst).Nodup) :
    (triples (make_matrix entries)).Pairwise
      (fun a b => a.1 < b.1 ∨ (a.1 = b.1 ∧ a.2.1 ≤ b.2.1)) := by
  rw [triples_make_matrix]
  unfold sortTriples
  exact sorted_rowMajor_of_sorted_col
    ((List.perm_insertionSort _ _).nodup_iff.mpr (stagedTriples_nodup entries hb hnd))
    (List.sorted_insertionSort colLE _)

/-- Witness for C1 on a three-entry store. -/
theorem make_matrix_canonical_order_witness :
    (triples (make_matrix
      [(row_col_to_key 1 1, (2 : Int)), (row_col_to_key 0 3, 4), (row_col_to_key 0 1, 5)])).Pairwise
      (fun a b => a.1 < b.1 ∨ (a.1 = b.1 ∧ a.2.1 ≤ b.2.1)) :=
  make_matrix_canonical_order _ (by decide) (by decide)

/-- **C9.**  For row and column indices that fit in 32 bits, the composite
key codec round-trips: `key_to_row_col (row_col_to_key row col) = (row,
col)`; consequently `row_col_to_key` is injective on 32-bit pairs. -/
theorem key_codec_roundtrip (row col : Nat) (hr : row < word32) (hc : col < word32) :
    key_to_row_col (row_col_to_key row col) = (row, col) ∧
      ∀ row' col', row' < word32 → col' < word32 →
        row_col_to_key row col = row_col_to_key row' col' → row = row' ∧ col = col' := by
  have hpow : (2 : Nat) ^ 32 = 4294967296 := by norm_num
  have hpow' : (2 : Nat) ^ 64 = 18446744073709551616 := by norm_num
  have hround : ∀ r c, r < word32 → c < word32 →
      key_to_row_col (row_col_to_key r c) = (r, c) := by
    intro r c h1 h2
    simp only [row_col_to_key, key_to_row_col, word32, word64, hpow, hpow'] at *
    rw [Prod.mk.injEq]
    constructor <;> omega
  refine ⟨hround row col hr hc, ?_⟩
  intro row' col' hr' hc' hkey
  have h1 := hround row col hr hc
  have h2 := hround row' col' hr' hc'
  rw [hkey, h2] at h1
  exact ⟨(Prod.mk.injEq _ _ _ _ ▸ h1).1.symm, (Prod.mk.injEq _ _ _ _ ▸ h1).2.symm⟩

/-- Witness for C9 at `row = 3`, `col = 5`. -/
theorem key_codec_roundtrip_witness :
    key_to_row_col (row_col_to_key 3 5) = (3, 5) :=
  (key_codec_roundtrip 3 5 (by norm_num [word32]) (by norm_num [word32])).1

/-- A key built by `row_col_to_key` always fits in 64 bits. -/
theorem row_col_to_key_lt (row col : Nat) : row_col_to_key row col < word64 :=
  Nat.mod_lt _ (by norm_num [word64])

/-- `insert_entry` leaves the key sequence duplicate-free. -/
theorem insert_entry_keys_nodup [DecidableEq α] (s : List (Entry α)) (r c : Nat) (v : α)
    (hnd : (s.map Prod.fst).Nodup) :
    ((insert_entry s r c v).map Prod.fst).Nodup := by
  unfold insert_entry
  by_cases h : s.any (fun e => decide (e.1 = row_col_to_key r c))
  · simp only [if_pos h]
    have : (s.map (fun e => if e.1 = row_col_to_key r c then (row_col_to_key r c, v) else e)).map
        Prod.fst = s.map Prod.fst := by
      rw [List.map_map]
      refine List.map_congr_left ?_
      intro e _
      by_cases he : e.1 = row_col_to_key r c
      · simp [he]
      · simp [he]
    rw [this]
    exact hnd
  · simp only [if_neg h]
    rw [List.map_append]
    rw [List.nodup_append]
    refine ⟨hnd, by simp, ?_⟩
    intro k hk
    simp only [List.map_cons, List.map_nil, List.mem_singleton]
    intro hkK
    rcases List.mem_map.mp hk with ⟨e, he, rfl⟩
    rw [List.any_eq_true] at h
    exact h ⟨e, he, by simp [hkK]⟩

/-- `insert_entry` keeps every key below `2 ^ 64`. -/
theorem insert_entry_keys_bound [DecidableEq α] (s : List (Entry α)) (r c : Nat) (v : α)
    (hb : ∀ k ∈ s.map Prod.fst, k < word64) :
    ∀ k ∈ (insert_entry s r c v).map Prod.fst, k < word64 := by
  unfold insert_entry
  by_cases h : s.any (fun e => decide (e.1 = row_col_to_key r c))
  · simp only [if_pos h]
    intro k hk
    rcases List.mem_map.mp hk with ⟨e, he, rfl⟩
    rcases List.mem_map.mp he with ⟨e', he', rfl⟩
    by_cases he1 : e'.1 = row_col_to_key r c
    · simp only [he1, if_pos rfl]
      exact row_col_to_key_lt r c
    · simp only [if_neg he1]
      exact hb _ (List.mem_map_of_mem _ he')
  · simp only [if_neg h]
    intro k hk
    rw [List.map_append] at hk
    rcases List.mem_append.mp hk with hk | hk
    · exact hb _ hk
    · simp only [List.map_cons, List.map_nil, List.mem_singleton] at hk
      subst hk
      exact row_col_to_key_lt r c

/-- Replacing the binding of a present key `K` in a duplicate-free store
leaves exactly one binding at `K`, holding the new value. -/
theorem filter_key_replace [DecidableEq α] (K : Nat) (v : α) :
    ∀ s : List (Entry α), (s.map Prod.fst).Nodup →
      s.any (fun e => decide (e.1 = K)) = true →
      (s.map (fun e => if e.1 = K then (K, v) else e)).filter
        (fun e => decide (e.1 = K)) = [(K, v)] := by
  intro s
  induction s with
  | nil => intro _ h; simp at h
  | cons e t ih =>
    intro hnd h
    have hkeys := List.nodup_cons.mp (show (e.1 :: t.map Prod.fst).Nodup from hnd)
    by_cases he : e.1 = K
    · simp only [List.map_cons, if_pos he, List.filter_cons, decide_True, if_true]
      have ht : (t.map (fun e => if e.1 = K then (K, v) else e)).filter
          (fun e => decide (e.1 = K)) = [] := by
        rw [List.filter_eq_nil_iff]
        intro a ha
        rcases List.mem_map.mp ha with ⟨e', he', rfl⟩
        have hne : e'.1 ≠ K := by
          intro hcontra
          apply hkeys.1
          rw [he, ← hcontra]
          exact List.mem_map_of_mem _ he'
        simp [hne]
      simp [ht]
    · have hany : t.any (fun e => decide (e.1 = K)) = true := by
        rcases List.any_eq_true.mp h with ⟨a, ha, hpa⟩
        rcases List.mem_cons.mp ha with rfl | hat
        · simp [he] at hpa
        · exact List.any_eq_true.mpr ⟨a, hat, hpa⟩
      have := ih hkeys.2 hany
      simpa [List.filter_cons, he] using this

/-- After `insert_entry s r c v` (duplicate-free keys), the store holds
exactly one binding for the composite key of `(r, c)` and its value is
`v`. -/
theorem filter_key_insert_entry [DecidableEq α] (s : List (Entry α)) (r c : Nat) (v : α)
    (hnd : (s.map Prod.fst).Nodup) :
    (insert_entry s r c v).filter (fun e => decide (e.1 = row_col_to_key r c))
      = [(row_col_to_key r c, v)] := by
  unfold insert_entry
  by_cases h : s.any (fun e => decide (e.1 = row_col_to_key r c))
  · simp only [if_pos h]
    exact filter_key_replace _ _ s hnd h
  · simp only [if_neg h]
    rw [List.filter_append]
    have h1 : s.filter (fun e => decide (e.1 = row_col_to_key r c)) = [] := by
      rw [List.filter_eq_nil_iff]
      intro a ha hpa
      rw [List.any_eq_true] at h
      exact h ⟨a, ha, hpa⟩
    simp [h1]

/-- Counting the staged triplets at a 32-bit coordinate `(r, c)` counts
the non-zero store bindings of the composite key of `(r, c)`. -/
theorem countP_stagedTriples [Zero α] [DecidableEq α] (s : List (Entry α)) (r c : Nat)
    (hb : ∀ k ∈ s.map Prod.fst, k < word64) (hr : r < word32) (hc : c < word32) :
    (stagedTriples s).countP (fun t => decide (t.1 = r ∧ t.2.1 = c))
      = s.countP (fun e => decide (e.1 = row_col_to_key r c) && decide (e.2 ≠ 0)) := by
  unfold stagedTriples
  rw [List.countP_map, List.countP_filter]
  refine List.countP_congr ?_
  intro e he
  have hbe : e.1 < word64 := hb _ (List.mem_map_of_mem _ he)
  have hiff : ((key_to_row_col e.1).1 = r ∧ (key_to_row_col e.1).2 = c)
      ↔ e.1 = row_col_to_key r c := by
    simp only [key_to_row_col, row_col_to_key]
    have hpow : (2 : Nat) ^ 32 = 4294967296 := by norm_num
    have hpow' : (2 : Nat) ^ 64 = 18446744073709551616 := by norm_num
    simp only [word32, word64, hpow, hpow'] at *
    omega
  simp only [Function.comp, Bool.and_eq_true, decide_eq_true_eq]
  constructor
  · rintro ⟨⟨h1, h2⟩, h3⟩
    exact ⟨hiff.mp ⟨h1, h2⟩, h3⟩
  · rintro ⟨h1, h3⟩
    exact ⟨⟨(hiff.mpr h1).1, (hiff.mpr h1).2⟩, h3⟩

/-- Membership of a triplet at a 32-bit coordinate `(r, c)` in the staged
sequence forces the originating binding to carry the composite key of
`(r, c)`. -/
theorem mem_stagedTriples_key [Zero α] [DecidableEq α] {s : List (Entry α)} {t : Triple α}
    (hb : ∀ k ∈ s.map Prod.fst, k < word64) {r c : Nat} (_hr : r < word32) (_hc : c < word32)
    (ht : t ∈ stagedTriples s) (htr : t.1 = r) (htc : t.2.1 = c) :
    ∃ e ∈ s, e.1 = row_col_to_key r c ∧ e.2 ≠ 0 ∧ t.2.2 = e.2 := by
  unfold stagedTriples at ht
  rcases List.mem_map.mp ht with ⟨e, he, rfl⟩
  have he' : e ∈ s := List.mem_of_mem_filter he
  have hnz : e.2 ≠ 0 := by
    have := List.of_mem_filter he
    simpa using this
  refine ⟨e, he', ?_, hnz, rfl⟩
  have hbe : e.1 < word64 := hb _ (List.mem_map_of_mem _ he')
  simp only [key_to_row_col] at htr htc
  simp only [row_col_to_key]
  have hpow : (2 : Nat) ^ 32 = 4294967296 := by norm_num
  have hpow' : (2 : Nat) ^ 64 = 18446744073709551616 := by norm_num
  simp only [word32, word64, hpow, hpow'] at *
  omega

/-- The value sequence of the materialized matrix, unfolded. -/
theorem values_make_matrix [Zero α] [DecidableEq α] (entries : List (Entry α)) :
    (make_matrix entries).values = (sortTriples (stagedTriples entries)).map (fun x => x.2.2) :=
  rfl

/-- The row count of the materialized matrix, unfolded. -/
theorem num_rows_make_matrix [Zero α] [DecidableEq α] (entries : List (Entry α)) :
    (make_matrix entries).num_rows
      = (maxIndex ((sortTriples (stagedTriples entries)).map (fun x => x.1)) + 1) % word32 :=
  rfl

/-- The column count of the materialized matrix, unfolded. -/
theorem num_cols_make_matrix [Zero α] [DecidableEq α] (entries : List (Entry α)) :
    (make_matrix entries).num_cols
      = (maxIndex ((sortTriples (stagedTriples entries)).map (fun x => x.2.1)) + 1) % word32 :=
  rfl

/-- **C3.**  Inserting at `(r, c)` twice with values `v1` then `v2 ≠ 0` and
materializing yields exactly one triplet at `(r, c)`, and it carries `v2`
(last write wins). -/
theorem insert_twice_last_write_wins [Zero α] [DecidableEq α] (s : List (Entry α))
    (r c : Nat) (v1 v2 : α)
    (hnd : (s.map Prod.fst).Nodup) (hb : ∀ k ∈ s.map Prod.fst, k < word64)
    (hr : r < word32) (hc : c < word32) (hv2 : v2 ≠ 0) :
    (triples (make_matrix (insert_entry (insert_entry s r c v1) r c v2))).countP
        (fun t => decide (t.1 = r ∧ t.2.1 = c)) = 1 ∧
      ∀ t ∈ triples (make_matrix (insert_entry (insert_entry s r c v1) r c v2)),
        t.1 = r → t.2.1 = c → t.2.2 = v2 := by
  have hnd1 := insert_entry_keys_nodup s r c v1 hnd
  have hb1 := insert_entry_keys_bound s r c v1 hb
  have hb2 := insert_entry_keys_bound (insert_entry s r c v1) r c v2 hb1
  have hfil : (insert_entry (insert_entry s r c v1) r c v2).filter
      (fun e => decide (e.1 = row_col_to_key r c)) = [(row_col_to_key r c, v2)] :=
    filter_key_insert_entry _ r c v2 hnd1
  constructor
  · rw [triples_make_matrix]
    rw [(sortTriples_perm _).countP_eq]
    rw [countP_stagedTriples _ r c hb2 hr hc]
    rw [List.countP_eq_length_filter]
    have hsplit : (insert_entry (insert_entry s r c v1) r c v2).filter
        (fun e => decide (e.1 = row_col_to_key r c) && decide (e.2 ≠ 0))
        = ((insert_entry (insert_entry s r c v1) r c v2).filter
            (fun e => decide (e.1 = row_col_to_key r c))).filter
            (fun e => decide (e.2 ≠ 0)) := by
      rw [List.filter_filter]
      refine List.filter_congr ?_
      intro e _
      rw [Bool.and_comm]
    rw [hsplit, hfil]
    simp [hv2]
  · intro t ht htr htc
    rw [triples_make_matrix] at ht
    have ht' : t ∈ stagedTriples (insert_entry (insert_entry s r c v1) r c v2) :=
      (sortTriples_perm _).mem_iff.mp ht
    rcases mem_stagedTriples_key hb2 hr hc ht' htr htc with ⟨e, he, hek, _, hval⟩
    have hef : e ∈ (insert_entry (insert_entry s r c v1) r c v2).filter
        (fun e => decide (e.1 = row_col_to_key r c)) :=
      List.mem_filter.mpr ⟨he, by simp [hek]⟩
    rw [hfil] at hef
    simp only [List.mem_singleton] at hef
    rw [hval, hef]

/-- Witness for C3: two inserts at `(2, 3)` with values `7` then `9` on the
empty store. -/
theorem insert_twice_last_write_wins_witness :
    (triples (make_matrix (insert_entry (insert_entry ([] : List (Entry Int)) 2 3 7) 2 3 9))).countP
        (fun t => decide (t.1 = 2 ∧ t.2.1 = 3)) = 1 :=
  (insert_twice_last_write_wins [] 2 3 7 9 (by decide) (by decide) (by decide) (by decide)
    (by decide)).1

/-- **C4.**  If the last value written at a coordinate `(r, c)` is zero,
the materialized matrix has no entry at `(r, c)`; and no materialized
entry ever holds a zero value. -/
theorem zero_entries_filtered [Zero α] [DecidableEq α] (s : List (Entry α)) (r c : Nat)
    (hnd : (s.map Prod.fst).Nodup) (hb : ∀ k ∈ s.map Prod.fst, k < word64)
    (hr : r < word32) (hc : c < word32) :
    (∀ t ∈ triples (make_matrix (insert_entry s r c (0 : α))), ¬(t.1 = r ∧ t.2.1 = c)) ∧
      ∀ s' : List (Entry α), ∀ v ∈ (make_matrix s').values, v ≠ 0 := by
  constructor
  · rintro t ht ⟨htr, htc⟩
    have hb1 := insert_entry_keys_bound s r c (0 : α) hb
    rw [triples_make_matrix] at ht
    have ht' : t ∈ stagedTriples (insert_entry s r c (0 : α)) :=
      (sortTriples_perm _).mem_iff.mp ht
    rcases mem_stagedTriples_key hb1 hr hc ht' htr htc with ⟨e, he, hek, hnz, _⟩
    have hef : e ∈ (insert_entry s r c (0 : α)).filter
        (fun e => decide (e.1 = row_col_to_key r c)) :=
      List.mem_filter.mpr ⟨he, by simp [hek]⟩
    rw [filter_key_insert_entry s r c (0 : α) hnd] at hef
    simp only [List.mem_singleton] at hef
    exact hnz (by rw [hef])
  · intro s' v hv
    rw [values_make_matrix] at hv
    rcases List.mem_map.mp hv with ⟨t, ht, rfl⟩
    have ht' : t ∈ stagedTriples s' := (sortTriples_perm _).mem_iff.mp ht
    unfold stagedTriples at ht'
    rcases List.mem_map.mp ht' with ⟨e, he, rfl⟩
    have := List.of_mem_filter he
    simpa using this

/-- Witness for C4: overwrite the value `5` at `(1, 2)` with `0` and
materialize — the matrix has no triplet at `(1, 2)`. -/
theorem zero_entries_filtered_witness :
    (triples (make_matrix (insert_entry [(row_col_to_key 1 2, (5 : Int))] 1 2 0))).countP
        (fun t => decide (t.1 = 1 ∧ t.2.1 = 2)) = 0 :=
  List.countP_eq_zero.mpr (fun t ht => by
    simpa using (zero_entries_filtered [(row_col_to_key 1 2, (5 : Int))] 1 2 (by decide)
      (by decide) (by decide) (by decide)).1 t ht)

/-- `maxIndex` is invariant under permutation. -/
theorem maxIndex_perm {l l' : List Nat} (h : l ~ l') : maxIndex l = maxIndex l' := by
  induction h with
  | nil => rfl
  | cons x _ ih => simp only [maxIndex, List.foldr_cons] at *; rw [ih]
  | swap x y l => simp only [maxIndex, List.foldr_cons]
                  rw [← Nat.max_assoc, Nat.max_comm y x, Nat.max_assoc]
  | trans _ _ ih1 ih2 => exact ih1.trans ih2

/-- **C5 (amended).**  With at least one surviving entry and maxima whose
successor fits in 32 bits, the materialized dimensions are one more than
the maximum surviving row and column index.  (Without the 32-bit bound the
`IndexType` addition `max + 1` wraps to `0`; see the counterexample.) -/
theorem make_matrix_dims [Zero α] [DecidableEq α] (entries : List (Entry α))
    (_hne : stagedTriples entries ≠ [])
    (hrow : maxIndex ((stagedTriples entries).map (fun t => t.1)) + 1 < word32)
    (hcol : maxIndex ((stagedTriples entries).map (fun t => t.2.1)) + 1 < word32) :
    (make_matrix entries).num_rows = maxIndex ((stagedTriples entries).map (fun t => t.1)) + 1 ∧
      (make_matrix entries).num_cols
        = maxIndex ((stagedTriples entries).map (fun t => t.2.1)) + 1 := by
  have hpr : maxIndex ((sortTriples (stagedTriples entries)).map (fun t => t.1))
      = maxIndex ((stagedTriples entries).map (fun t => t.1)) :=
    maxIndex_perm ((sortTriples_perm _).map _)
  have hpc : maxIndex ((sortTriples (stagedTriples entries)).map (fun t => t.2.1))
      = maxIndex ((stagedTriples entries).map (fun t => t.2.1)) :=
    maxIndex_perm ((sortTriples_perm _).map _)
  constructor
  · rw [num_rows_make_matrix, hpr]
    exact Nat.mod_eq_of_lt hrow
  · rw [num_cols_make_matrix, hpc]
    exact Nat.mod_eq_of_lt hcol

/-- Counterexample to C5 as stated: a single non-zero entry at row
`2 ^ 32 - 1` (the largest `uint32_t` row index) makes `max + 1` wrap to
`0`, so `num_rows` is not `1 +` the maximum surviving row index. -/
theorem make_matrix_dims_counterexample :
    (make_matrix [(row_col_to_key (word32 - 1) 0, (1 : Int))]).num_rows
      ≠ maxIndex ((stagedTriples [(row_col_to_key (word32 - 1) 0, (1 : Int))]).map
          (fun t => t.1)) + 1 := by
  decide

/-- Witness for C5 on the dimension-inference example of the design
document: non-zero entries at rows `{0, 3, 1}` and columns `{2, 5, 0}`
give `num_rows = 4` and `num_cols = 6`. -/
theorem make_matrix_dims_witness :
    (make_matrix [(row_col_to_key 0 2, (1 : Int)), (row_col_to_key 3 5, 1),
        (row_col_to_key 1 0, 1)]).num_rows = 4 ∧
      (make_matrix [(row_col_to_key 0 2, (1 : Int)), (row_col_to_key 3 5, 1),
        (row_col_to_key 1 0, 1)]).num_cols = 6 := by
  have h := make_matrix_dims
    [(row_col_to_key 0 2, (1 : Int)), (row_col_to_key 3 5, 1), (row_col_to_key 1 0, 1)]
    (by decide) (by decide) (by decide)
  exact ⟨h.1.trans (by decide), h.2.trans (by decide)⟩

/-- Conjugation of a complex value is an involution. -/
theorem conj_conj (z : Cplx) : z.conj.conj = z := by
  cases z
  simp [Cplx.conj]

/-- Conjugating a value list twice restores it. -/
theorem map_conj_conj (l : List Cplx) : (l.map Cplx.conj).map Cplx.conj = l := by
  induction l with
  | nil => rfl
  | cons a t ih => simp only [List.map_cons, conj_conj, ih]

/-- **C8.**  `SpMV` with `conjugate = true` conjugates the stored values in
place before the multiply and conjugates them back afterwards; since
conjugation is an involution, the stored matrix (values, dimensions and
index sequences) after the call is exactly the matrix before the call. -/
theorem SpMV_conjugate_frame (M : CompactMatrix Cplx) (x : List Cplx) (transpose : Bool) :
    (SpMV_complex M x transpose true).1 = M := by
  unfold SpMV_complex
  simp only [if_pos rfl]
  unfold conjValues
  cases M
  have hcomp : Cplx.conj ∘ Cplx.conj = id := funext conj_conj
  simp [hcomp]

/-- **C7.**  Calling `SpMV` with input and output referring to the same
storage (equal addresses `p`) leaves that storage holding exactly the
two-step result `temp = A·x; y = temp` — for every behaviour `junk` the
backend might exhibit on aliased buffers, since the wrapper always hands
the backend a fresh temporary. -/
theorem SpMV_aliasing_safe [Zero α] [Add α] [Mul α] (junk : List α) (M : CompactMatrix α)
    (h : Nat → List α) (p : Nat) (transpose : Bool) :
    SpMV_heap junk M h p p transpose p
      = (let temp := mult (operandMatrix M transpose) (h p); temp) := by
  have h1 : ¬(p = p + p + 1) := by omega
  have h2 : ¬(p + p + 1 = p) := by omega
  simp [SpMV_heap, cusp_multiply, heapUpd, h1, h2]

/-- **C2 (failure evaluation).**  The transpose view is built with the
dimensions `(num_rows, num_cols)` of the original matrix instead of the
swapped `(num_cols, num_rows)`, so on the non-square matrix with the
single entry `(0, 1, 5)` the transpose multiply by `x = [7]` produces
`[0]` while the explicitly transposed copy produces `[0, 35]`. -/
theorem transpose_view_dims_mismatch :
    SpMV_out (make_matrix [(row_col_to_key 0 1, (5 : Int))]) [7] true = [0] ∧
      mult (explicit_transpose (make_matrix [(row_col_to_key 0 1, (5 : Int))])) [7] = [0, 35] ∧
      SpMV_out (make_matrix [(row_col_to_key 0 1, (5 : Int))]) [7] true
        ≠ mult (explicit_transpose (make_matrix [(row_col_to_key 0 1, (5 : Int))])) [7] := by
  decide

/-- The backend multiply returns a vector of `num_rows` components. -/
theorem length_mult [Zero α] [Add α] [Mul α] (M : CompactMatrix α) (x : List α) :
    (mult M x).length = M.num_rows := by
  simp [mult]

/-- The transpose view keeps the (unswapped) row count of its source. -/
theorem num_rows_matrix_t [Zero α] (M : CompactMatrix α) :
    (matrix_t M).num_rows = M.num_rows :=
  rfl

/-- The `SpMV` result always has `num_rows` components, with or without
the transpose flag (the view keeps the unswapped dimensions). -/
theorem length_SpMV_out [Zero α] [Add α] [Mul α] (M : CompactMatrix α) (x : List α) (t : Bool) :
    (SpMV_out M x t).length = M.num_rows := by
  cases t <;> simp [SpMV_out, operandMatrix, length_mult, num_rows_matrix_t]

/-- Accumulating a zero temporary into a prefix of `y` leaves `y`
unchanged. -/
theorem zipWith_replicate_zero_add [CommRing α] :
    ∀ (n : Nat) (l : List α),
      List.zipWith (· + ·) (List.replicate n (0 : α)) l ++ l.drop n = l := by
  intro n
  induction n with
  | zero => intro l; simp
  | succ k ih =>
    intro l
    cases l with
    | nil => simp
    | cons c t => simp [List.replicate_succ, ih t]

/-- `SpMVP` computes the AXPY combination
`alpha * (A · x) + beta * y` componentwise, for every scalar pair. -/
theorem SpMVP_eq_axpy [CommRing α] [DecidableEq α] (M : CompactMatrix α) (a b : α)
    (x z : List α) (t : Bool) (hz : z.length = M.num_rows) :
    SpMVP M a x b z t
      = List.zipWith (fun p q => a * p + b * q) (SpMV_out M x t) z := by
  have hm : (SpMV_out M x t).length = M.num_rows := length_SpMV_out M x t
  unfold SpMVP
  by_cases hb0 : b = 0
  · simp only [if_pos hb0]
    by_cases ha0 : a = 0
    · simp only [if_pos ha0]
      by_cases ha1 : a = 1
      · simp only [if_pos ha1]
        have h01 : (0 : α) = 1 := ha0 ▸ ha1
        subst hb0
        subst ha0
        refine List.ext_getElem (by simp [hz, hm]) ?_
        intro i h1 h2
        simp only [List.getElem_zipWith, zero_mul, add_zero]
        exact eq_zero_of_zero_eq_one h01 _
      · simp only [if_neg ha1]
        subst hb0
        subst ha0
        refine List.ext_getElem (by simp [hz, hm]) ?_
        intro i h1 h2
        simp only [List.getElem_zipWith, List.getElem_map]
        ring
    · simp only [if_neg ha0]
      by_cases ha1 : a = 1
      · simp only [if_pos ha1]
        subst hb0
        subst ha1
        refine List.ext_getElem (by simp [hz, hm]) ?_
        intro i h1 h2
        simp only [List.getElem_zipWith]
        ring
      · simp only [if_neg ha1]
        subst hb0
        refine List.ext_getElem (by simp [hz, hm]) ?_
        intro i h1 h2
        simp only [List.getElem_zipWith, List.getElem_map]
        ring
  · simp only [if_neg hb0]
    by_cases ha0 : a = 0
    · simp only [if_pos ha0]
      rw [List.length_replicate, zipWith_replicate_zero_add]
      by_cases hb1 : b = 1
      · simp only [if_pos hb1]
        subst ha0
        subst hb1
        refine List.ext_getElem (by simp [hz, hm]) ?_
        intro i h1 h2
        simp only [List.getElem_zipWith]
        ring
      · simp only [if_neg hb1]
        subst ha0
        refine List.ext_getElem (by simp [hz, hm]) ?_
        intro i h1 h2
        simp only [List.getElem_zipWith, List.getElem_map]
        ring
    · simp only [if_neg ha0]
      by_cases ha1 : a = 1
      · simp only [if_pos ha1]
        have hdrop : ∀ w : List α, w.length = M.num_rows →
            w.drop (SpMV_out M x t).length = [] := by
          intro w hw
          exact List.drop_eq_nil_of_le (by rw [hw, hm])
        by_cases hb1 : b = 1
        · simp only [if_pos hb1]
          rw [hdrop z hz, List.append_nil]
          subst ha1
          subst hb1
          refine List.ext_getElem (by simp [hz, hm]) ?_
          intro i h1 h2
          simp only [List.getElem_zipWith]
          ring
        · simp only [if_neg hb1]
          rw [hdrop (z.map (fun v => v * b)) (by simp [hz]), List.append_nil]
          subst ha1
          refine List.ext_getElem (by simp [hz, hm]) ?_
          intro i h1 h2
          simp only [List.getElem_zipWith, List.getElem_map]
          ring
      · simp only [if_neg ha1]
        have hdrop : ∀ w : List α, w.length = M.num_rows →
            w.drop ((SpMV_out M x t).map (fun v => v * a)).length = [] := by
          intro w hw
          exact List.drop_eq_nil_of_le (by rw [hw]; simp [hm])
        by_cases hb1 : b = 1
        · simp only [if_pos hb1]
          rw [hdrop z hz, List.append_nil]
          subst hb1
          refine List.ext_getElem (by simp [hz, hm]) ?_
          intro i h1 h2
          simp only [List.getElem_zipWith, List.getElem_map]
          ring
        · simp only [if_neg hb1]
          rw [hdrop (z.map (fun v => v * b)) (by simp [hz]), List.append_nil]
          refine List.ext_getElem (by simp [hz, hm]) ?_
          intro i h1 h2
          simp only [List.getElem_zipWith, List.getElem_map]
          ring

/-- **C6.**  `SpMVP` computes `y ← alpha * (A · x) + beta * y` with the
stated short-circuit policies: for `beta = 0` the result never depends on
the prior contents of `y`; for `alpha = 0` the result is `beta` times the
prior `y`; for `beta = 0` the result is `alpha * (A · x)`; for
`alpha = beta = 1` the result is `A · x + y`. -/
theorem SpMVP_identities [CommRing α] [DecidableEq α] (M : CompactMatrix α) (alpha beta : α)
    (x y : List α) (transpose : Bool) (hy : y.length = M.num_rows) :
    SpMVP M alpha x beta y transpose
        = List.zipWith (fun p q => alpha * p + beta * q) (SpMV_out M x transpose) y ∧
      (beta = 0 → ∀ y2 : List α, y2.length = y.length →
        SpMVP M alpha x beta y transpose = SpMVP M alpha x beta y2 transpose) ∧
      (alpha = 0 → SpMVP M alpha x beta y transpose = y.map (fun v => beta * v)) ∧
      (beta = 0 → SpMVP M alpha x beta y transpose
        = (SpMV_out M x transpose).map (fun v => alpha * v)) ∧
      (alpha = 1 → beta = 1 → SpMVP M alpha x beta y transpose
        = List.zipWith (· + ·) (SpMV_out M x transpose) y) := by
  have hm : (SpMV_out M x transpose).length = M.num_rows := length_SpMV_out M x transpose
  refine ⟨SpMVP_eq_axpy M alpha beta x y transpose hy, ?_, ?_, ?_, ?_⟩
  · intro hb0 y2 hlen
    subst hb0
    rw [SpMVP_eq_axpy M alpha 0 x y transpose hy,
      SpMVP_eq_axpy M alpha 0 x y2 transpose (hlen.trans hy)]
    refine List.ext_getElem (by simp [hy, hm, hlen.trans hy]) ?_
    intro i h1 h2
    simp only [List.getElem_zipWith]
    ring
  · intro ha0
    subst ha0
    rw [SpMVP_eq_axpy M 0 beta x y transpose hy]
    refine List.ext_getElem (by simp [hy, hm]) ?_
    intro i h1 h2
    simp only [List.getElem_zipWith, List.getElem_map]
    ring
  · intro hb0
    subst hb0
    rw [SpMVP_eq_axpy M alpha 0 x y transpose hy]
    refine List.ext_getElem (by simp [hy, hm]) ?_
    intro i h1 h2
    simp only [List.getElem_zipWith, List.getElem_map]
    ring
  · intro ha1 hb1
    subst ha1
    subst hb1
    rw [SpMVP_eq_axpy M 1 1 x y transpose hy]
    refine List.ext_getElem (by simp [hy, hm]) ?_
    intro i h1 h2
    simp only [List.getElem_zipWith]
    ring

/-- Witness for C6: the `2 × 2` matrix `[[1, 2], [3, 4]]`, `x = [1, 1]`,
`y = [10, 20]`, `alpha = 2`, `beta = 3`. -/
theorem SpMVP_identities_witness :
    SpMVP (make_matrix [(row_col_to_key 0 0, (1 : Int)), (row_col_to_key 0 1, 2),
        (row_col_to_key 1 0, 3), (row_col_to_key 1 1, 4)]) 2 [1, 1] 3 [10, 20] false
      = List.zipWith (fun p q => 2 * p + 3 * q)
          (SpMV_out (make_matrix [(row_col_to_key 0 0, (1 : Int)), (row_col_to_key 0 1, 2),
            (row_col_to_key 1 0, 3), (row_col_to_key 1 1, 4)]) [1, 1] false)
          [10, 20] :=
  (SpMVP_identities (make_matrix [(row_col_to_key 0 0, (1 : Int)), (row_col_to_key 0 1, 2),
    (row_col_to_key 1 0, 3), (row_col_to_key 1 1, 4)]) 2 3 [1, 1] [10, 20] false (by decide)).1

/-- Folding the row contributions equals summing the mapped products. -/
theorem foldr_mul_add_eq_sum [CommRing α] (f : Triple α → α) :
    ∀ l : List (Triple α), l.foldr (fun t acc => f t + acc) 0 = (l.map f).sum := by
  intro l
  induction l with
  | nil => rfl
  | cons t l ih => simp [ih]

/-- A row contribution only depends on the multiset of triplets. -/
theorem rowContrib_perm [CommRing α] {ts₁ ts₂ : List (Triple α)} (h : ts₁ ~ ts₂)
    (x : List α) (r : Nat) : rowContrib ts₁ x r = rowContrib ts₂ x r := by
  unfold rowContrib
  rw [foldr_mul_add_eq_sum, foldr_mul_add_eq_sum]
  exact ((h.filter _).map _).sum_eq

/-- Zipping three maps over a common position list tuples the images. -/
theorem zip_map_positions (f g : Nat → Nat) (h : Nat → α) :
    ∀ p : List Nat,
      (p.map f).zip ((p.map g).zip (p.map h)) = p.map (fun i => (f i, g i, h i)) := by
  intro p
  induction p with
  | nil => rfl
  | cons i p ih => simp [ih]

/-- Tupling positionwise default reads over the full index range recovers
the zipped lists. -/
theorem map_range_getD_eq_zip [Zero α] (J I : List Nat) (V : List α)
    (hI : I.length = J.length) (hV : V.length = J.length) :
    (List.range J.length).map (fun i => (J.getD i 0, I.getD i 0, V.getD i (0 : α)))
      = J.zip (I.zip V) := by
  refine List.ext_getElem (by simp [hI, hV]) ?_
  intro i h1 h2
  have hiJ : i < J.length := by simpa using h1
  simp only [List.getElem_map, List.getElem_range, List.getElem_zip]
  rw [List.getD_eq_getElem J 0 hiJ, List.getD_eq_getElem I 0 (by omega),
    List.getD_eq_getElem V 0 (by omega)]

/-- The triplet sequence of the transpose view is a permutation of the
triplet sequence of the explicitly transposed copy. -/
theorem triples_matrix_t_perm [Zero α] (M : CompactMatrix α)
    (hI : M.row_indices.length = M.column_indices.length)
    (hV : M.values.length = M.column_indices.length) :
    triples (matrix_t M) ~ triples (explicit_transpose M) := by
  have h1 : triples (matrix_t M)
      = (transpose_permutation M.column_indices).map
          (fun i => (M.column_indices.getD i 0, M.row_indices.getD i 0,
            M.values.getD i (0 : α))) := by
    simp only [triples, matrix_t]
    exact zip_map_positions _ _ _ _
  have h2 : (List.range M.column_indices.length).map
        (fun i => (M.column_indices.getD i 0, M.row_indices.getD i 0, M.values.getD i (0 : α)))
      = M.column_indices.zip (M.row_indices.zip M.values) :=
    map_range_getD_eq_zip M.column_indices M.row_indices M.values hI hV
  rw [h1]
  have hp := (List.perm_insertionSort (permLE M.column_indices)
    (List.range M.column_indices.length)).map
    (fun i => (M.column_indices.getD i 0, M.row_indices.getD i 0, M.values.getD i (0 : α)))
  rw [h2] at hp
  exact hp

/-- On square matrices the transpose view multiplies exactly like the
explicitly transposed copy: the dimension slip recorded in C2 is the only
divergence. -/
theorem transpose_view_square_correct [CommRing α] (M : CompactMatrix α) (x : List α)
    (hsq : M.num_rows = M.num_cols)
    (hI : M.row_indices.length = M.column_indices.length)
    (hV : M.values.length = M.column_indices.length) :
    mult (matrix_t M) x = mult (explicit_transpose M) x := by
  have hperm := triples_matrix_t_perm M hI hV
  unfold mult
  rw [show (matrix_t M).num_rows = M.num_rows from rfl,
    show (explicit_transpose M).num_rows = M.num_cols from rfl, ← hsq]
  refine List.map_congr_left ?_
  intro r _
  exact rowContrib_perm hperm x r

/-- **C10.**  The converting constructor discards its argument: for every
matrix `m`, the wrapper built from `m` equals the default-constructed
wrapper (the constructor body `matrix = matrix` self-assigns the
parameter, which shadows the member). -/
theorem mk_from_matrix_eq_default (m : CompactMatrix α) :
    SparseMatrixWrapper.mk_from_matrix m = (SparseMatrixWrapper.mk_default : SparseMatrixWrapper α) :=
  rfl

end Puff
